import Mathlib

/-!
Verification development for `scripts/ibex/split_vcd.py`.

The script reads a VCD file as a list of text lines, finds the end of the
header section (the first line containing `$end` at or after the first line
containing `$dumpvars`), and then routes every body line to one of two output
buffers by comparing a running `current_time` against the split time.  Each
output file is the header followed by one of the two buffers, written back
line by line with `writelines`.

The embedding below models a line as its list of characters (including any
line terminator the line carries).  Python's `str.strip` and `int` are
modelled on the ASCII fragment that VCD files use: `int` accepts an optional
sign followed by decimal digits possibly separated by single underscores, and
`strip` removes the six ASCII whitespace characters.
-/

/-- A line of the input file, as its sequence of characters (a trailing
newline, when present, is part of the line, exactly as `readlines` keeps it). -/
abbrev Line := List Char

/-- The six ASCII whitespace characters removed by Python's `str.strip()`. -/
def isPySpace (c : Char) : Bool :=
  c = ' ' || c = '\t' || c = '\n' || c = '\r' || c = '\x0b' || c = '\x0c'

/-- Python's `str.strip()`: drop leading and trailing whitespace. -/
def pyStrip (s : List Char) : List Char :=
  ((s.dropWhile isPySpace).reverse.dropWhile isPySpace).reverse

/-- Numeric value of a list of decimal digit characters. -/
def digitsVal (l : List Char) : Nat :=
  l.foldl (fun acc c => acc * 10 + (c.toNat - 48)) 0

/-- No two consecutive underscore characters occur in the list. -/
def noDoubleUnderscore : List Char → Bool
  | [] => true
  | [_] => true
  | a :: b :: rest => !(a = '_' && b = '_') && noDoubleUnderscore (b :: rest)

/-- The digit-part grammar of a Python integer literal: a nonempty run of
decimal digits in which single underscores may separate digits (an underscore
may not start the run, end it, or be doubled). -/
def isDigitPart (l : List Char) : Bool :=
  !l.isEmpty
    && l.head?.elim false Char.isDigit
    && l.getLast?.elim false Char.isDigit
    && l.all (fun c => c.isDigit || c = '_')
    && noDoubleUnderscore l

/-- Model of Python's `int(s)` on an already-stripped ASCII string: an
optional sign followed by a digit part; `none` when the string is not a valid
integer literal (the script's `except: pass` then leaves the time unchanged). -/
def pyInt (l : List Char) : Option Int :=
  match l with
  | '+' :: rest =>
      if isDigitPart rest then some (digitsVal (rest.filter (fun c => !(c = '_')))) else none
  | '-' :: rest =>
      if isDigitPart rest then some (-(digitsVal (rest.filter (fun c => !(c = '_'))) : Int)) else none
  | _ =>
      if isDigitPart l then some (digitsVal (l.filter (fun c => !(c = '_')))) else none

/-- The timestamp a line carries: for a line starting with `#`, the result of
`int(line[1:].strip())`; `none` for any other line or when parsing fails. -/
def lineTimestamp : Line → Option Int
  | '#' :: rest => pyInt (pyStrip rest)
  | _ => none

/-- One step of the loop's `current_time` update: a line with a parsable
timestamp sets the time, every other line leaves it unchanged. -/
def updateTime (t : Int) (line : Line) : Int :=
  (lineTimestamp line).getD t

/-- The routing loop of `split_vcd` over the body lines: each line first
updates `current_time` (when it carries a timestamp) and is then appended to
`data1` when `current_time <= split_time_ps` and to `data2` otherwise. -/
def splitData (T : Int) : Int → List Line → List Line × List Line
  | _, [] => ([], [])
  | t, line :: rest =>
    let t' := updateTime t line
    let p := splitData T t' rest
    if t' ≤ T then (line :: p.1, p.2) else (p.1, line :: p.2)

/-- The characters of the `$dumpvars` marker. -/
def dumpvarsMarker : List Char := "$dumpvars".toList

/-- The characters of the `$end` marker. -/
def endMarker : List Char := "$end".toList

/-- Substring containment, Python's `pat in line`. -/
def hasSub (pat : List Char) : List Char → Bool
  | [] => pat.isEmpty
  | c :: rest => pat.isPrefixOf (c :: rest) || hasSub pat rest

/-- The header-end scan of `split_vcd`: walking the lines with index `i` and
an `in_dumpvars` flag, it returns `i + 1` for the first line that contains
`$end` once the flag is set (the flag is set by the first line containing
`$dumpvars`, possibly the same line), and `0` when the scan never triggers. -/
def headerEndAux : Nat → Bool → List Line → Nat
  | _, _, [] => 0
  | i, inDv, line :: rest =>
    let inDv' := inDv || hasSub dumpvarsMarker line
    if inDv' && hasSub endMarker line then i + 1
    else headerEndAux (i + 1) inDv' rest

/-- The `header_end` index computed by `split_vcd`. -/
def headerEnd (lines : List Line) : Nat := headerEndAux 0 false lines

/-- The pure core of `split_vcd`: the two output files as line sequences,
`(header ++ data1, header ++ data2)`, where `header = lines[:header_end]` and
the body `lines[header_end:]` is routed by `splitData` starting at time 0. -/
def split_vcd (T : Int) (lines : List Line) : List Line × List Line :=
  let he := headerEnd lines
  let header := lines.take he
  let data := lines.drop he
  let p := splitData T 0 data
  (header ++ p.1, header ++ p.2)

/-- The character content of an output file: `writelines` writes the lines
back-to-back with no added separator. -/
def fileChars (out : List Line) : List Char := out.flatten

/-- The parsed timestamp values occurring in a body, in order. -/
def timestampsOf (body : List Line) : List Int := body.filterMap lineTimestamp

/-- Index of the first line satisfying `p`, used to state the header-scan
contract in the spec's terms. -/
def findFirst (p : Line → Bool) : List Line → Option Nat
  | [] => none
  | l :: rest => if p l then some 0 else (findFirst p rest).map (· + 1)

/-! ### Basic unfolding lemmas -/

lemma splitData_cons (T t : Int) (line : Line) (rest : List Line) :
    splitData T t (line :: rest)
      = if updateTime t line ≤ T
        then (line :: (splitData T (updateTime t line) rest).1,
              (splitData T (updateTime t line) rest).2)
        else ((splitData T (updateTime t line) rest).1,
              line :: (splitData T (updateTime t line) rest).2) := rfl

lemma updateTime_eq_of_some {line : Line} {v : Int} (h : lineTimestamp line = some v)
    (t : Int) : updateTime t line = v := by
  simp [updateTime, h]

lemma updateTime_eq_of_none {line : Line} (h : lineTimestamp line = none)
    (t : Int) : updateTime t line = t := by
  simp [updateTime, h]

lemma timestampsOf_cons_some {line : Line} {v : Int} (h : lineTimestamp line = some v)
    (rest : List Line) : timestampsOf (line :: rest) = v :: timestampsOf rest := by
  simp [timestampsOf, List.filterMap_cons, h]

lemma timestampsOf_cons_none {line : Line} (h : lineTimestamp line = none)
    (rest : List Line) : timestampsOf (line :: rest) = timestampsOf rest := by
  simp [timestampsOf, List.filterMap_cons, h]

/-! ### Routing lemmas -/

/-- A block of lines none of which carries a timestamp is routed as one unit:
the current time `v` is unchanged across it, so the whole block lands in the
partition selected by `v ≤ T`, in order, ahead of whatever the rest yields. -/
lemma splitData_group (T v : Int) (grp : List Line) :
    (∀ l ∈ grp, lineTimestamp l = none) → ∀ rest : List Line,
    splitData T v (grp ++ rest)
      = if v ≤ T
        then (grp ++ (splitData T v rest).1, (splitData T v rest).2)
        else ((splitData T v rest).1, grp ++ (splitData T v rest).2) := by
  induction grp with
  | nil =>
    intro _ rest
    by_cases h : v ≤ T <;> simp [h]
  | cons g grp ih =>
    intro hgrp rest
    have hg : lineTimestamp g = none := hgrp g (by simp)
    have ih' := ih (fun l hl => hgrp l (by simp [hl])) rest
    rw [List.cons_append, splitData_cons, updateTime_eq_of_none hg, ih']
    by_cases h : v ≤ T <;> simp [h]

/-- Once the current time has passed the split time, a body whose timestamps
are non-decreasing from that time is routed entirely to the after partition. -/
lemma splitData_stays_after (T : Int) (data : List Line) :
    ∀ t : Int, T < t → List.Chain' (· ≤ ·) (t :: timestampsOf data) →
    splitData T t data = ([], data) := by
  induction data with
  | nil => intro t _ _; rfl
  | cons line rest ih =>
    intro t hTt hch
    rcases hlt : lineTimestamp line with _ | v
    · rw [timestampsOf_cons_none hlt rest] at hch
      rw [splitData_cons, updateTime_eq_of_none hlt, ih t hTt hch]
      simp [not_le.mpr hTt]
    · rw [timestampsOf_cons_some hlt rest] at hch
      rw [List.chain'_cons] at hch
      have hTv : T < v := lt_of_lt_of_le hTt hch.1
      rw [splitData_cons, updateTime_eq_of_some hlt, ih v hTv hch.2]
      simp [not_le.mpr hTv]

/-- On a body whose timestamps are non-decreasing from the starting time, the
two partitions concatenate back to the body. -/
lemma splitData_append_eq (T : Int) (data : List Line) :
    ∀ t : Int, List.Chain' (· ≤ ·) (t :: timestampsOf data) →
    (splitData T t data).1 ++ (splitData T t data).2 = data := by
  induction data with
  | nil => intro t _; rfl
  | cons line rest ih =>
    intro t hch
    rcases hlt : lineTimestamp line with _ | v
    · rw [timestampsOf_cons_none hlt rest] at hch
      rw [splitData_cons, updateTime_eq_of_none hlt]
      by_cases h : t ≤ T
      · simp only [if_pos h]
        simp [ih t hch]
      · simp only [if_neg h]
        rw [splitData_stays_after T rest t (not_le.mp h) hch]
        simp
    · rw [timestampsOf_cons_some hlt rest] at hch
      rw [List.chain'_cons] at hch
      rw [splitData_cons, updateTime_eq_of_some hlt]
      by_cases h : v ≤ T
      · simp only [if_pos h]
        simp [ih v hch.2]
      · simp only [if_neg h]
        rw [splitData_stays_after T rest v (not_le.mp h) hch.2]
        simp

/-- When its first line carries a timestamp, a body is routed the same way
from any starting time: the first line overwrites the current time. -/
lemma splitData_head_ts (T t t' : Int) {line : Line} {v : Int}
    (h : lineTimestamp line = some v) (rest : List Line) :
    splitData T t (line :: rest) = splitData T t' (line :: rest) := by
  rw [splitData_cons, splitData_cons, updateTime_eq_of_some h t, updateTime_eq_of_some h t']

/-- Re-splitting the after partition at a larger boundary composes with the
original split: on a body whose timestamps are non-decreasing from the
starting time `t ≤ T1 ≤ T2`, splitting at `T2` equals the `T1` before
partition followed by the split of the `T1` after partition at `T2`. -/
lemma splitData_resplit (T1 T2 : Int) (h12 : T1 ≤ T2) (data : List Line) :
    ∀ t : Int, t ≤ T1 → List.Chain' (· ≤ ·) (t :: timestampsOf data) →
    splitData T2 t data
      = ((splitData T1 t data).1 ++ (splitData T2 0 ((splitData T1 t data).2)).1,
         (splitData T2 0 ((splitData T1 t data).2)).2) := by
  induction data with
  | nil => intro t _ _; rfl
  | cons line rest ih =>
    intro t ht hch
    rcases hlt : lineTimestamp line with _ | v
    · rw [timestampsOf_cons_none hlt rest] at hch
      have ht2 : t ≤ T2 := le_trans ht h12
      have eL : splitData T1 t (line :: rest)
          = (line :: (splitData T1 t rest).1, (splitData T1 t rest).2) := by
        rw [splitData_cons, updateTime_eq_of_none hlt t, if_pos ht]
      rw [splitData_cons, updateTime_eq_of_none hlt t, if_pos ht2, eL,
        ih t ht hch]
      simp
    · rw [timestampsOf_cons_some hlt rest] at hch
      rw [List.chain'_cons] at hch
      by_cases hv : v ≤ T1
      · have hv2 : v ≤ T2 := le_trans hv h12
        have eL : splitData T1 t (line :: rest)
            = (line :: (splitData T1 v rest).1, (splitData T1 v rest).2) := by
          rw [splitData_cons, updateTime_eq_of_some hlt t, if_pos hv]
        rw [splitData_cons, updateTime_eq_of_some hlt t, if_pos hv2, eL,
          ih v hv hch.2]
        simp
      · have hafter : splitData T1 v rest = ([], rest) :=
          splitData_stays_after T1 rest v (not_le.mp hv) hch.2
        have eL : splitData T1 t (line :: rest) = ([], line :: rest) := by
          rw [splitData_cons, updateTime_eq_of_some hlt t, if_neg hv, hafter]
        rw [eL, splitData_head_ts T2 t 0 hlt rest]
        simp

/-- Each partition is a subsequence of the body, and together they are a
permutation of it: every line goes to exactly one side, in order. -/
lemma splitData_sublist_perm (T : Int) (data : List Line) :
    ∀ t : Int,
    ((splitData T t data).1).Sublist data
      ∧ ((splitData T t data).2).Sublist data
      ∧ List.Perm ((splitData T t data).1 ++ (splitData T t data).2) data := by
  induction data with
  | nil => intro t; exact ⟨List.Sublist.refl _, List.Sublist.refl _, List.Perm.refl _⟩
  | cons line rest ih =>
    intro t
    obtain ⟨h1, h2, h3⟩ := ih (updateTime t line)
    rw [splitData_cons]
    by_cases h : updateTime t line ≤ T
    · rw [if_pos h]
      exact ⟨h1.cons₂ line, h2.cons line, h3.cons line⟩
    · rw [if_neg h]
      exact ⟨h1.cons line, h2.cons₂ line, List.Perm.trans List.perm_middle (h3.cons line)⟩

/-! ### Header-scan lemmas -/

lemma headerEndAux_true (lines : List Line) :
    ∀ k : Nat, headerEndAux k true lines
      = match findFirst (hasSub endMarker) lines with
        | none => 0
        | some j => k + j + 1 := by
  induction lines with
  | nil => intro k; rfl
  | cons line rest ih =>
    intro k
    cases h : hasSub endMarker line with
    | true => simp [headerEndAux, findFirst, h]
    | false =>
      rcases hf : findFirst (hasSub endMarker) rest with _ | j
      · simp [headerEndAux, findFirst, h, ih (k + 1), hf]
      · simp [headerEndAux, findFirst, h, ih (k + 1), hf]
        omega

lemma headerEndAux_false (lines : List Line) :
    ∀ k : Nat, headerEndAux k false lines
      = match findFirst (hasSub dumpvarsMarker) lines with
        | none => 0
        | some i =>
          match findFirst (hasSub endMarker) (lines.drop i) with
          | none => 0
          | some j => k + i + j + 1 := by
  induction lines with
  | nil => intro k; rfl
  | cons line rest ih =>
    intro k
    cases hd : hasSub dumpvarsMarker line with
    | true =>
      cases he : hasSub endMarker line with
      | true => simp [headerEndAux, findFirst, hd, he]
      | false =>
        rcases hf : findFirst (hasSub endMarker) rest with _ | j
        · simp [headerEndAux, findFirst, hd, he, headerEndAux_true rest (k + 1), hf]
        · simp [headerEndAux, findFirst, hd, he, headerEndAux_true rest (k + 1), hf]
          omega
    | false =>
      rcases hfd : findFirst (hasSub dumpvarsMarker) rest with _ | i
      · simp [headerEndAux, findFirst, hd, ih (k + 1), hfd]
      · rcases hf : findFirst (hasSub endMarker) (rest.drop i) with _ | j
        · simp [headerEndAux, findFirst, hd, ih (k + 1), hfd, hf]
        · simp [headerEndAux, findFirst, hd, ih (k + 1), hfd, hf]
          omega

/-! ### Concrete example inputs used by the witnesses -/

/-- A small well-formed VCD: a three-line header followed by two
timestamp-delimited groups. -/
def exLines : List Line :=
  ["$dumpvars\n".toList, "0!\n".toList, "$end\n".toList,
   "#100\n".toList, "1!\n".toList, "#200\n".toList, "0!\n".toList]

/-- The body `#100\n1!\n#200\n1!\n` used by the spec's boundary examples. -/
def exBody100 : List Line :=
  ["#100\n".toList, "1!\n".toList, "#200\n".toList, "1!\n".toList]

lemma exLines_chain :
    List.Chain' (· ≤ ·) (0 :: timestampsOf (exLines.drop (headerEnd exLines))) := by
  have h : timestampsOf (exLines.drop (headerEnd exLines)) = [100, 200] := by decide
  rw [h]
  simp [List.chain'_cons]

/-! ### The claims -/

/-- C1: for an input whose body timestamp values are non-decreasing starting
from the initial current time 0 (a valid VCD), the before-partition body
followed by the after-partition body is exactly the original body line
sequence: no body line is dropped, duplicated, or reordered by the split. -/
theorem vcd_c1_completeness (T : Int) (lines : List Line)
    (h : List.Chain' (· ≤ ·) (0 :: timestampsOf (lines.drop (headerEnd lines)))) :
    (splitData T 0 (lines.drop (headerEnd lines))).1
      ++ (splitData T 0 (lines.drop (headerEnd lines))).2
      = lines.drop (headerEnd lines) :=
  splitData_append_eq T (lines.drop (headerEnd lines)) 0 h

theorem vcd_c1_witness :
    List.Chain' (· ≤ ·) (0 :: timestampsOf (exLines.drop (headerEnd exLines)))
    ∧ (splitData 100 0 (exLines.drop (headerEnd exLines))).1
        ++ (splitData 100 0 (exLines.drop (headerEnd exLines))).2
        = exLines.drop (headerEnd exLines) :=
  ⟨exLines_chain, vcd_c1_completeness 100 exLines exLines_chain⟩

/-- C2: a timestamp line parsing to `v` is appended to the before partition
when `v ≤ T` and to the after partition otherwise (the rest of the body being
routed from time `v`); in particular the body `#100\n1!\n#200\n1!\n` splits
at time 100 into `#100\n1!\n` and `#200\n1!\n`, and at time 99 into the empty
sequence and the whole body. -/
theorem vcd_c2_timestamp_routing (T t v : Int) (line : Line) (rest : List Line)
    (h : lineTimestamp line = some v) :
    splitData T t (line :: rest)
      = (if v ≤ T
         then (line :: (splitData T v rest).1, (splitData T v rest).2)
         else ((splitData T v rest).1, line :: (splitData T v rest).2))
    ∧ splitData 100 0 exBody100
        = (["#100\n".toList, "1!\n".toList], ["#200\n".toList, "1!\n".toList])
    ∧ splitData 99 0 exBody100 = ([], exBody100) := by
  refine ⟨?_, by decide, by decide⟩
  rw [splitData_cons, updateTime_eq_of_some h t]

theorem vcd_c2_witness :
    lineTimestamp ("#100\n".toList) = some 100
    ∧ splitData 100 0 exBody100
        = (["#100\n".toList, "1!\n".toList], ["#200\n".toList, "1!\n".toList]) :=
  ⟨by decide,
   (vcd_c2_timestamp_routing 100 0 100 ("#100\n".toList) [] (by decide)).2.1⟩

/-- C3: a non-timestamp body line is appended to the partition selected by
the current time, i.e. by the decision made for the most recently emitted
valid timestamp line; consequently a whole timestamp-delimited group — a
timestamp line parsing to `v` followed by lines carrying no timestamp — lands
entirely in one partition, never split across the two. -/
theorem vcd_c3_group_atomicity (T t v : Int) (tsl : Line) (grp rest : List Line)
    (hts : lineTimestamp tsl = some v)
    (hgrp : ∀ l ∈ grp, lineTimestamp l = none) :
    (∀ (l : Line) (rest2 : List Line), lineTimestamp l = none →
        splitData T t (l :: rest2)
          = if t ≤ T
            then (l :: (splitData T t rest2).1, (splitData T t rest2).2)
            else ((splitData T t rest2).1, l :: (splitData T t rest2).2))
    ∧ splitData T t (tsl :: (grp ++ rest))
        = (if v ≤ T
           then (tsl :: (grp ++ (splitData T v rest).1), (splitData T v rest).2)
           else ((splitData T v rest).1, tsl :: (grp ++ (splitData T v rest).2))) := by
  constructor
  · intro l rest2 hl
    rw [splitData_cons, updateTime_eq_of_none hl t]
  · rw [splitData_cons, updateTime_eq_of_some hts t, splitData_group T v grp hgrp rest]
    by_cases h : v ≤ T <;> simp [h]

theorem vcd_c3_witness :
    lineTimestamp ("#200\n".toList) = some 200
    ∧ (∀ l ∈ ["1!\n".toList], lineTimestamp l = none)
    ∧ splitData 100 0 (("#200\n".toList) :: (["1!\n".toList] ++ []))
        = (if (200 : Int) ≤ 100
           then (("#200\n".toList) :: (["1!\n".toList] ++ (splitData 100 200 []).1),
                 (splitData 100 200 []).2)
           else ((splitData 100 200 []).1,
                 ("#200\n".toList) :: (["1!\n".toList] ++ (splitData 100 200 []).2))) :=
  ⟨by decide, by decide,
   (vcd_c3_group_atomicity 100 0 200 ("#200\n".toList) ["1!\n".toList] []
      (by decide) (by decide)).2⟩

/-- C4: output 1 is exactly the header followed by the before partition and
output 2 exactly the same header followed by the after partition, both as
line sequences and as written character streams, so the header sections of
the two outputs are identical to the source header and to each other. -/
theorem vcd_c4_output_assembly (T : Int) (lines : List Line) :
    (split_vcd T lines).1
      = lines.take (headerEnd lines) ++ (splitData T 0 (lines.drop (headerEnd lines))).1
    ∧ (split_vcd T lines).2
      = lines.take (headerEnd lines) ++ (splitData T 0 (lines.drop (headerEnd lines))).2
    ∧ fileChars ((split_vcd T lines).1)
      = fileChars (lines.take (headerEnd lines))
          ++ fileChars ((splitData T 0 (lines.drop (headerEnd lines))).1)
    ∧ fileChars ((split_vcd T lines).2)
      = fileChars (lines.take (headerEnd lines))
          ++ fileChars ((splitData T 0 (lines.drop (headerEnd lines))).2)
    ∧ (fileChars ((split_vcd T lines).1)).take (fileChars (lines.take (headerEnd lines))).length
      = fileChars (lines.take (headerEnd lines))
    ∧ (fileChars ((split_vcd T lines).2)).take (fileChars (lines.take (headerEnd lines))).length
      = fileChars (lines.take (headerEnd lines)) := by
  refine ⟨rfl, rfl, ?_, ?_, ?_, ?_⟩
  · simp [split_vcd, fileChars]
  · simp [split_vcd, fileChars]
  · simp [split_vcd, fileChars, List.take_left]
  · simp [split_vcd, fileChars, List.take_left]

/-- C5: when the lines contain a `$dumpvars` marker whose first occurrence is
at index `i` and an `$end` marker occurs at or after it, the header boundary
is the index one past the first such `$end` line — the first pairing only,
with no rescanning. -/
theorem vcd_c5_header_boundary (lines : List Line) (i j : Nat)
    (hdv : findFirst (hasSub dumpvarsMarker) lines = some i)
    (hend : findFirst (hasSub endMarker) (lines.drop i) = some j) :
    headerEnd lines = i + j + 1 := by
  have h := headerEndAux_false lines 0
  rw [hdv] at h
  simp only [] at h
  rw [hend] at h
  simp only [] at h
  unfold headerEnd
  rw [h]
  simp

theorem vcd_c5_witness :
    findFirst (hasSub dumpvarsMarker) exLines = some 0
    ∧ findFirst (hasSub endMarker) (exLines.drop 0) = some 2
    ∧ headerEnd exLines = 0 + 2 + 1 :=
  ⟨by decide, by decide, vcd_c5_header_boundary exLines 0 2 (by decide) (by decide)⟩

/-- C6: when no line contains the `$dumpvars` marker, or one does but no line
at or after it contains the `$end` marker, the header boundary defaults to 0:
the header is empty, the whole file is treated as body, and each output is
just the corresponding partition with no header replicated; the split still
runs to completion. -/
theorem vcd_c6_no_header (T : Int) (lines : List Line)
    (h : findFirst (hasSub dumpvarsMarker) lines = none
         ∨ ∃ i, findFirst (hasSub dumpvarsMarker) lines = some i
              ∧ findFirst (hasSub endMarker) (lines.drop i) = none) :
    headerEnd lines = 0
    ∧ lines.take (headerEnd lines) = []
    ∧ lines.drop (headerEnd lines) = lines
    ∧ split_vcd T lines = ((splitData T 0 lines).1, (splitData T 0 lines).2) := by
  have h0 : headerEnd lines = 0 := by
    have haux := headerEndAux_false lines 0
    rcases h with hnone | ⟨i, hi, hnone⟩
    · rw [hnone] at haux
      simpa using haux
    · rw [hi] at haux
      simp only [] at haux
      rw [hnone] at haux
      simpa using haux
  refine ⟨h0, by rw [h0]; rfl, by rw [h0]; rfl, ?_⟩
  simp [split_vcd, h0]

theorem vcd_c6_witness :
    (findFirst (hasSub dumpvarsMarker) ["#1\n".toList, "x\n".toList] = none
     ∨ ∃ i, findFirst (hasSub dumpvarsMarker) ["#1\n".toList, "x\n".toList] = some i
          ∧ findFirst (hasSub endMarker) (["#1\n".toList, "x\n".toList].drop i) = none)
    ∧ headerEnd ["#1\n".toList, "x\n".toList] = 0
    ∧ split_vcd 5 ["#1\n".toList, "x\n".toList]
        = ((splitData 5 0 ["#1\n".toList, "x\n".toList]).1,
           (splitData 5 0 ["#1\n".toList, "x\n".toList]).2) := by
  have h : findFirst (hasSub dumpvarsMarker) ["#1\n".toList, "x\n".toList] = none := by decide
  have hc := vcd_c6_no_header 5 ["#1\n".toList, "x\n".toList] (Or.inl h)
  exact ⟨Or.inl h, hc.1, hc.2.2.2⟩

/-- C7: a body line beginning with `#` whose remainder does not parse as an
integer leaves the current time unchanged and is still emitted into whichever
partition is currently active — it is not dropped, and nothing fails. -/
theorem vcd_c7_malformed_timestamp (T t : Int) (r : List Char) (rest : List Line)
    (h : pyInt (pyStrip r) = none) :
    updateTime t ('#' :: r) = t
    ∧ splitData T t (('#' :: r) :: rest)
        = (if t ≤ T
           then (('#' :: r) :: (splitData T t rest).1, (splitData T t rest).2)
           else ((splitData T t rest).1, ('#' :: r) :: (splitData T t rest).2)) := by
  have hl : lineTimestamp ('#' :: r) = none := by
    simp [lineTimestamp, h]
  exact ⟨updateTime_eq_of_none hl t,
    by rw [splitData_cons, updateTime_eq_of_none hl t]⟩

theorem vcd_c7_witness :
    pyInt (pyStrip ("abc\n".toList)) = none
    ∧ updateTime 0 ('#' :: ("abc\n".toList)) = 0
    ∧ splitData 100 0 (('#' :: ("abc\n".toList)) :: [])
        = (if (0 : Int) ≤ 100
           then (('#' :: ("abc\n".toList)) :: (splitData 100 0 []).1, (splitData 100 0 []).2)
           else ((splitData 100 0 []).1, ('#' :: ("abc\n".toList)) :: (splitData 100 0 []).2)) := by
  have h : pyInt (pyStrip ("abc\n".toList)) = none := by decide
  have hc := vcd_c7_malformed_timestamp 100 0 ("abc\n".toList) [] h
  exact ⟨h, hc.1, hc.2⟩

/-- C8: the current time starts at 0, so for any split time `T ≥ 0` every
body line occurring before the first timestamp line is placed in the before
partition, ahead of the before lines of the remaining body. -/
theorem vcd_c8_pre_timestamp (T : Int) (hT : 0 ≤ T) (pre rest : List Line)
    (hpre : ∀ l ∈ pre, lineTimestamp l = none) :
    splitData T 0 (pre ++ rest)
      = (pre ++ (splitData T 0 rest).1, (splitData T 0 rest).2) := by
  rw [splitData_group T 0 pre hpre rest, if_pos hT]

theorem vcd_c8_witness :
    (0 : Int) ≤ 100
    ∧ (∀ l ∈ ["x!\n".toList], lineTimestamp l = none)
    ∧ splitData 100 0 (["x!\n".toList] ++ ["#200\n".toList])
        = (["x!\n".toList] ++ (splitData 100 0 ["#200\n".toList]).1,
           (splitData 100 0 ["#200\n".toList]).2) :=
  ⟨by norm_num, by decide,
   vcd_c8_pre_timestamp 100 (by norm_num) ["x!\n".toList] ["#200\n".toList] (by decide)⟩

/-- C9: splitting composes on contiguous time ranges: on a valid body (its
timestamp values non-decreasing from the initial time 0), if splitting at
`T1` yields `(before1, after1)` then, for `T2 ≥ T1` at or above the first
timestamp of `after1`, splitting `after1` at `T2` yields `(mid, tail)` with
the split of the original body at `T2` equal to `(before1 ++ mid, tail)`. -/
theorem vcd_c9_resplit_composes (T1 T2 : Int) (data : List Line)
    (hvalid : List.Chain' (· ≤ ·) (0 :: timestampsOf data))
    (h12 : T1 ≤ T2)
    (_hfirst : ∀ v : Int,
      (timestampsOf ((splitData T1 0 data).2)).head? = some v → v ≤ T2) :
    splitData T2 0 data
      = ((splitData T1 0 data).1 ++ (splitData T2 0 ((splitData T1 0 data).2)).1,
         (splitData T2 0 ((splitData T1 0 data).2)).2) := by
  by_cases h1 : (0 : Int) ≤ T1
  · exact splitData_resplit T1 T2 h12 data 0 h1 hvalid
  · have hafter : splitData T1 0 data = ([], data) :=
      splitData_stays_after T1 data 0 (not_le.mp h1) hvalid
    rw [hafter]
    simp

theorem vcd_c9_witness :
    List.Chain' (· ≤ ·) (0 :: timestampsOf exBody100)
    ∧ (100 : Int) ≤ 250
    ∧ (∀ v : Int,
        (timestampsOf ((splitData 100 0 exBody100).2)).head? = some v → v ≤ 250)
    ∧ splitData 250 0 exBody100
        = ((splitData 100 0 exBody100).1
             ++ (splitData 250 0 ((splitData 100 0 exBody100).2)).1,
           (splitData 250 0 ((splitData 100 0 exBody100).2)).2) := by
  have hch : List.Chain' (· ≤ ·) (0 :: timestampsOf exBody100) := by
    have h : timestampsOf exBody100 = [100, 200] := by decide
    rw [h]
    simp [List.chain'_cons]
  have hfirst : ∀ v : Int,
      (timestampsOf ((splitData 100 0 exBody100).2)).head? = some v → v ≤ 250 := by
    intro v hv
    have h200 : (timestampsOf ((splitData (100 : Int) 0 exBody100).2)).head? = some 200 := by
      decide
    rw [h200] at hv
    injection hv with h'
    omega
  exact ⟨hch, by norm_num, hfirst,
    vcd_c9_resplit_composes 100 250 exBody100 hch (by norm_num) hfirst⟩

/-- C10: for every body and every integer split time — monotone or not,
negative or not — each partition is a subsequence of the body and together
they are a permutation of it: every line lands in exactly one partition, in
its original relative order, with no loss or duplication. -/
theorem vcd_c10_complementary (T : Int) (data : List Line) :
    ((splitData T 0 data).1).Sublist data
    ∧ ((splitData T 0 data).2).Sublist data
    ∧ List.Perm ((splitData T 0 data).1 ++ (splitData T 0 data).2) data :=
  splitData_sublist_perm T data 0
